import Mathlib

/-!
Verification of the agent-routing and code-execution subsystem of the
Datascience-AI-Agent backend.  The Python sources under
`backend/app/utils/` (`shared_utils.py`, `code_executor.py`,
`file_handler.py`, `specialized_agents.py`) are shallowly embedded below:
text is `List Char`, dictionaries are association lists, the dynamic
behaviour of `exec` (stdout produced, exception raised, figures created,
wall-clock timeout) is an explicit `ExecBehavior` record threaded through
`executeCode`, and the in-memory dataframe store is a heap of explicitly
addressed cells so that Python's `.copy()` aliasing discipline is visible.
-/

/-- Text is modelled as a list of characters (Python `str`). -/
abbrev Str := List Char

/-- Python `\s` whitespace class (ASCII). -/
def pySpace (c : Char) : Bool :=
  c == ' ' || c == '\t' || c == '\n' || c == '\r' || c == '\x0b' || c == '\x0c'

/-- Python `str.strip()`: drop whitespace from both ends. -/
def pyStrip (s : Str) : Str :=
  ((s.dropWhile pySpace).reverse.dropWhile pySpace).reverse

/-- `needle` is a prefix of `hay` (Python `str.startswith`). -/
def startsWithB : Str → Str → Bool
  | [], _ => true
  | _ :: _, [] => false
  | c :: cs, x :: xs => (x == c) && startsWithB cs xs

/-- Python substring containment (`needle in hay`). -/
def occursB (needle : Str) : Str → Bool
  | [] => startsWithB needle []
  | x :: xs => startsWithB needle (x :: xs) || occursB needle xs

/-- Python `str.lower()` (ASCII). -/
def toLowerStr (s : Str) : Str := s.map Char.toLower

/-- Lines of a Python `str.split('\n')`. -/
def splitLines : Str → List Str
  | [] => [[]]
  | c :: t =>
    if c == '\n' then [] :: splitLines t
    else match splitLines t with
      | [] => [[c]]
      | l :: ls => (c :: l) :: ls

/-- Python `'\n'.join(lines)`. -/
def joinLines : List Str → Str
  | [] => []
  | [l] => l
  | l :: ls => l ++ '\n' :: joinLines ls

/-- Decimal rendering of a natural number as text. -/
def natStr (n : Nat) : Str := (toString n).toList

/-! ## Regex engine for `CodeValidator.BLOCKED_PATTERNS`

The blocklist of `shared_utils.CodeValidator` uses only these regex
constructs: literal characters (matched case-insensitively because
`validate` passes `re.IGNORECASE`), the classes `\s`, `[^)]` and `["']`,
the stars `\s*` / `\s+` / `[^)]*`, and the word-boundary assertion `\b`.
A token list with a backtracking matcher embeds exactly this fragment. -/

/-- One regex token of the fragment used by the blocklist. -/
inductive RTok where
  | lit : Char → RTok
  | cls : (Char → Bool) → RTok
  | star : (Char → Bool) → RTok
  | wb : RTok

/-- Python `\w` (ASCII): letters, digits, underscore. -/
def isWordChar (c : Char) : Bool := c.isAlphanum || c == '_'

/-- A `\b` assertion holds between `prev` and the next character. -/
def boundaryOk (prev next : Option Char) : Bool :=
  (match prev with | none => false | some c => isWordChar c)
    != (match next with | none => false | some c => isWordChar c)

/-- Backtracking matcher with explicit fuel (each step strictly
decreases `ts.length + s.length`, so `ts.length + s.length + 1` fuel is
always enough; the fuel only makes the recursion structural): do the
tokens match a prefix of `s` (`prev` is the character just before `s`,
for `\b`)? -/
def matchToksF : Nat → List RTok → Option Char → List Char → Bool
  | 0, _, _, _ => false
  | _ + 1, [], _, _ => true
  | f + 1, .wb :: ts, prev, s => boundaryOk prev s.head? && matchToksF f ts prev s
  | _ + 1, .lit _ :: _, _, [] => false
  | f + 1, .lit c :: ts, _, x :: xs =>
    (x.toLower == c.toLower) && matchToksF f ts (some x) xs
  | _ + 1, .cls _ :: _, _, [] => false
  | f + 1, .cls p :: ts, _, x :: xs => p x && matchToksF f ts (some x) xs
  | f + 1, .star _ :: ts, prev, [] => matchToksF f ts prev []
  | f + 1, .star p :: ts, prev, x :: xs =>
    matchToksF f ts prev (x :: xs) || (p x && matchToksF f (.star p :: ts) (some x) xs)

/-- The matcher at always-sufficient fuel. -/
def matchToks (ts : List RTok) (prev : Option Char) (s : List Char) : Bool :=
  matchToksF (ts.length + s.length + 1) ts prev s

/-- Does the pattern match starting at some position of `s`? -/
def searchFrom (ts : List RTok) : Option Char → List Char → Bool
  | prev, [] => matchToks ts prev []
  | prev, x :: xs => matchToks ts prev (x :: xs) || searchFrom ts (some x) xs

/-- Python `re.search(pattern, s)` (as a Boolean) for this fragment. -/
def research (ts : List RTok) (s : Str) : Bool := searchFrom ts none s

/-- Literal tokens for a string. -/
def litToks (s : String) : List RTok := s.toList.map RTok.lit

/-- `\s*` -/
def spStar : RTok := .star pySpace

/-- `\s+` is one `\s` followed by `\s*`. -/
def spPlus : List RTok := [.cls pySpace, spStar]

/-- The class `["']`. -/
def quoteCls : RTok := .cls (fun c => c == '"' || c == '\x27')

/-- The class `[^)]`. -/
def nonParenCls : (Char → Bool) := fun c => !(c == ')')

/-- `CodeValidator.BLOCKED_PATTERNS`: each entry is the token form of the
pattern together with the pattern's source text (used in the violation
message `f"Blocked pattern detected: {pattern}"`). -/
def BLOCKED_PATTERNS : List (List RTok × Str) :=
  [ ([.wb] ++ litToks "os.system" ++ [.wb], "\\bos\\.system\\b".toList),
    ([.wb] ++ litToks "subprocess.", "\\bsubprocess\\.".toList),
    ([.wb] ++ litToks "eval" ++ [spStar, .lit '('], "\\beval\\s*\\(".toList),
    ([.wb] ++ litToks "exec" ++ [spStar, .lit '('], "\\bexec\\s*\\(".toList),
    (litToks "__import__" ++ [spStar, .lit '('], "__import__\\s*\\(".toList),
    ([.wb] ++ litToks "open" ++ [spStar, .lit '(', .star nonParenCls,
        quoteCls, .lit 'w', quoteCls],
      "\\bopen\\s*\\([^)]*[\"\\x27]w[\"\\x27]".toList),
    ([.wb] ++ litToks "rmtree" ++ [.wb], "\\brmtree\\b".toList),
    ([.wb] ++ litToks "remove" ++ [.wb], "\\bremove\\b".toList),
    ([.wb] ++ litToks "unlink" ++ [.wb], "\\bunlink\\b".toList),
    ([.wb] ++ litToks "rm" ++ spPlus ++ [.lit '-'], "\\brm\\s+-".toList),
    ([.wb] ++ litToks "del" ++ spPlus ++ [.lit '/'], "\\bdel\\s+\\/".toList),
    (litToks "import" ++ spPlus ++ litToks "socket" ++ [.wb],
      "import\\s+socket\\b".toList),
    (litToks "from" ++ spPlus ++ litToks "socket" ++ [.wb],
      "from\\s+socket\\b".toList),
    (litToks "import" ++ spPlus ++ litToks "requests" ++ [.wb],
      "import\\s+requests\\b".toList),
    (litToks "from" ++ spPlus ++ litToks "requests" ++ [.wb],
      "from\\s+requests\\b".toList),
    (litToks "urllib.request", "urllib\\.request".toList),
    (litToks "httplib", "httplib".toList) ]

/-- First blocked pattern (in declaration order) matching the code. -/
def findBlocked : List (List RTok × Str) → Str → Option Str
  | [], _ => none
  | (ts, d) :: rest, code =>
    if research ts code then some d else findBlocked rest code

/-- `CodeValidator.validate`: scan the blocklist in order; the first
match short-circuits with `(False, "Blocked pattern detected: …")`;
otherwise `(True, "")`. -/
def validate (code : Str) : Bool × Str :=
  match findBlocked BLOCKED_PATTERNS code with
  | some d => (false, "Blocked pattern detected: ".toList ++ d)
  | none => (true, [])

/-! ## `CodeValidator.sanitize_code`

`sanitize_code` applies two `re.sub` rewrites in sequence, replacing
`pd.read_csv('…'` / `pd.read_excel("…"` (a literal call head, an opening
quote, a run of non-quote characters, a closing quote) with the fixed
replacement text `df  # Using pre-loaded data`.  Both rewrites share the
same shape, differing only in the literal call head, so the substitution
is defined once, parameterised by that literal. -/

/-- A quote character (the class `['"]`). -/
def isQuoteB (c : Char) : Bool := c == '"' || c == '\x27'

/-- Consume a literal (case-sensitive), returning the rest. -/
def matchLit : List Char → List Char → Option (List Char)
  | [], s => some s
  | _ :: _, [] => none
  | c :: cs, x :: xs => if x == c then matchLit cs xs else none

/-- Consume `[^'"]*['"]` (greedily scan to the first quote), returning
the rest after the closing quote. -/
def scanClose : List Char → Option (List Char)
  | [] => none
  | x :: xs => if isQuoteB x then some xs else scanClose xs

/-- Try to match `lit ['"] [^'"]* ['"]` at the head of `s`. -/
def tryPat (lit : List Char) (s : List Char) : Option (List Char) :=
  match matchLit lit s with
  | none => none
  | some s1 =>
    match s1 with
    | [] => none
    | c :: s2 => if isQuoteB c then scanClose s2 else none

theorem matchLit_length {lit s r : List Char} (h : matchLit lit s = some r) :
    r.length ≤ s.length := by
  induction lit generalizing s with
  | nil => simp [matchLit] at h; simp [h]
  | cons c cs ih =>
    cases s with
    | nil => simp [matchLit] at h
    | cons x xs =>
      simp only [matchLit] at h
      split at h
      · exact Nat.le_succ_of_le (ih h)
      · exact absurd h (by simp)

theorem scanClose_length {s r : List Char} (h : scanClose s = some r) :
    r.length < s.length := by
  induction s with
  | nil => simp [scanClose] at h
  | cons x xs ih =>
    simp only [scanClose] at h
    split at h
    · cases h; simp
    · exact Nat.lt_succ_of_lt (ih h)

theorem tryPat_length {lit s r : List Char} (h : tryPat lit s = some r) :
    r.length < s.length := by
  unfold tryPat at h
  cases hm : matchLit lit s with
  | none => rw [hm] at h; exact absurd h (by simp)
  | some s1 =>
    rw [hm] at h
    cases s1 with
    | nil => exact absurd h (by simp)
    | cons c s2 =>
      simp only at h
      split at h
      · have h1 := matchLit_length hm
        have h2 := scanClose_length h
        simp at h1
        omega
      · exact absurd h (by simp)

/-- The replacement text of both rewrites. -/
def REPL : Str := "df  # Using pre-loaded data".toList

/-- `re.sub(lit + quoted-argument, REPL, s)`: scan left to right, on a
match emit the replacement and resume after the matched text. -/
def subP (lit : List Char) : List Char → List Char
  | [] => []
  | c :: t =>
    match h : tryPat lit (c :: t) with
    | some rest => REPL ++ subP lit rest
    | none => c :: subP lit t
termination_by s => s.length
decreasing_by
  · exact tryPat_length h
  · simp

/-- The literal head of the `pd.read_csv` rewrite. -/
def LITC : Str := "pd.read_csv(".toList

/-- The literal head of the `pd.read_excel` rewrite. -/
def LITE : Str := "pd.read_excel(".toList

/-- `CodeValidator.sanitize_code`: first the `read_csv` rewrite, then the
`read_excel` rewrite. -/
def sanitize_code (code : Str) : Str := subP LITE (subP LITC code)

/-- Walk `lit` against `r`: `true` when the pattern `lit ['"] …` is
bound to fail within `r` itself, whatever text follows `r`. -/
def mismatchWithin : List Char → List Char → Bool
  | _, [] => false
  | [], c :: _ => !(isQuoteB c)
  | c :: cs, x :: xs => if x == c then mismatchWithin cs xs else true

/-- Every suffix of `lit` is bound to fail against the replacement text
(the inductive invariant of the peel lemma below). -/
def allSafe (lit : List Char) : Prop :=
  ∀ n, mismatchWithin (lit.drop n) REPL = true

/-- The pattern `lit ['"] …` matches at no position of `u`. -/
def noMatch (lit : List Char) (u : List Char) : Prop :=
  ∀ i, tryPat lit (u.drop i) = none

/-- The pattern is bound to fail at every start position strictly inside
the replacement text. -/
def replSafe (lit : List Char) : Prop :=
  ∀ i < REPL.length, mismatchWithin lit (REPL.drop i) = true

example : validate "import os\nos.system('ls')".toList
    = (false, "Blocked pattern detected: \\bos\\.system\\b".toList) := by decide

example : validate "print(df.head())".toList = (true, []) := by decide

/-! ## `CodeExecutor._get_variable_info`

Runtime Python values are embedded as a closed datatype carrying exactly
the observations `_get_variable_info` makes of them (`isinstance` class,
`len`, `str`, shape/columns/dtype). -/

/-- A runtime value as observed by `_get_variable_info`. -/
inductive PyValue where
  /-- a `pd.DataFrame` with its shape, column names and formatted memory size -/
  | vDataFrame (rows cols : Nat) (columns : List Str) (memory : Str)
  /-- a `pd.Series` with its length, dtype text and name -/
  | vSeries (length : Nat) (dtype : Str) (sname : Str)
  /-- a `str` -/
  | vStr (s : Str)
  /-- an `int` -/
  | vInt (i : Int)
  /-- a `float`, carried as its `str()` rendering -/
  | vFloat (txt : Str)
  /-- a `bool` -/
  | vBool (b : Bool)
  /-- a non-`str`, non-`dict` value with `__len__` (list, tuple, set, array, …) -/
  | vSized (typeName : Str) (length : Nat)
  /-- a `dict` -/
  | vDict (length : Nat)
  /-- anything else (module, class, function, …), known only by type name -/
  | vOpaque (typeName : Str)
deriving DecidableEq

/-- One variable summary produced by `_get_variable_info`. -/
inductive VarInfo where
  | dataframe (shape : Nat × Nat) (columns : List Str) (memory : Str)
  | series (length : Nat) (dtype : Str) (sname : Str)
  | sized (typeName : Str) (length : Nat)
  | scalar (typeName : Str) (value : Str)
  | strInfo (length : Nat) (value : Str)
  | plain (typeName : Str)
deriving DecidableEq

/-- The `isinstance`/`hasattr` branch chain of `_get_variable_info`,
in source order: DataFrame, Series, sized non-`str`/`dict`,
`int`/`float`/`bool`, `str`, fallback type name. -/
def summarize : PyValue → VarInfo
  | .vDataFrame r c columns memory => .dataframe (r, c) (columns.take 10) memory
  | .vSeries n dtype sname => .series n dtype sname
  | .vSized t n => .sized t n
  | .vInt i => .scalar "int".toList (toString i).toList
  | .vFloat txt => .scalar "float".toList txt
  | .vBool b => .scalar "bool".toList (if b then "True".toList else "False".toList)
  | .vStr s =>
    .strInfo s.length (if s.length > 100 then s.take 100 ++ "...".toList else s)
  | .vDict _ => .plain "dict".toList
  | .vOpaque t => .plain t

/-- The `skip_items` set of `_get_variable_info`. -/
def skipItems : List Str :=
  ["pd", "pandas", "plt", "matplotlib", "np", "numpy",
   "sns", "seaborn", "scipy", "df", "__builtins__"].map String.toList

/-- `CodeExecutor._get_variable_info`: summarise every environment entry
whose name does not start with `_` and is not in `skip_items`. -/
def varInfo (env : List (Str × PyValue)) : List (Str × VarInfo) :=
  env.filterMap fun nv =>
    if startsWithB "_".toList nv.1 || skipItems.contains nv.1 then none
    else some (nv.1, summarize nv.2)

/-- `CodeExecutor._setup_base_environment` with every optional import
succeeding (the standard configuration): the names pre-bound into the
execution environment before any user code runs. -/
def baseEnvironment : List (Str × PyValue) :=
  [("pd".toList, .vOpaque "module".toList),
   ("pandas".toList, .vOpaque "module".toList),
   ("plt".toList, .vOpaque "module".toList),
   ("matplotlib".toList, .vOpaque "module".toList),
   ("np".toList, .vOpaque "module".toList),
   ("numpy".toList, .vOpaque "module".toList),
   ("sns".toList, .vOpaque "module".toList),
   ("seaborn".toList, .vOpaque "module".toList),
   ("scipy".toList, .vOpaque "module".toList),
   ("stats".toList, .vOpaque "module".toList),
   ("LinearRegression".toList, .vOpaque "ABCMeta".toList),
   ("PolynomialFeatures".toList, .vOpaque "ABCMeta".toList)]

/-! ## `CodeExecutor.execute_code`

The dynamic act of `exec`-ing the (sanitized) code is not shallowly
embeddable, so it is abstracted as an `ExecBehavior` oracle recording
what the run did: whether the worker finished within the timeout, the
stdout/stderr text it produced (up to the fault, if one was raised), the
exception (`str(e)` plus `traceback.format_exc()` text) if any, the
matplotlib figures alive at capture time, and the environment afterwards.
`executeCode` is the control flow of `execute_code` over that oracle;
everything the claims speak about (validation gating, truncation,
timeout/error packaging, plot and variable capture) is explicit. -/

/-- A matplotlib figure at capture time; `renderFails` marks the
figures whose `savefig` raises (such figures are skipped, logged). -/
structure Figure where
  payload : Str
  renderFails : Bool
deriving DecidableEq

/-- Configuration read from `settings` (environment-sourced; defaults
`CODE_EXECUTION_TIMEOUT=30`, `MAX_OUTPUT_SIZE=100000`, `MAX_PLOT_COUNT=10`). -/
structure ExecConfig where
  timeout : Nat
  maxOutputSize : Nat
  maxPlotCount : Nat
deriving DecidableEq

/-- What running the code actually did (the `exec` oracle). -/
structure ExecBehavior where
  timedOut : Bool
  stdout : Str
  stderrTxt : Str
  exn : Option (Str × Str)
  figures : List Figure
  envAfter : List (Str × PyValue)
deriving DecidableEq

/-- The result dictionary of `execute_code` (`vars` is the `variables`
key of the source, whose name is a reserved word here). -/
structure ExecResult where
  success : Bool
  output : Str
  error : Option Str
  plots : List Str
  vars : List (Str × VarInfo)
deriving DecidableEq

/-- `CodeExecutor._capture_plots`: keep at most `max_plot_count` figure
numbers (oldest first), encode each as a data URI, skip figures whose
rendering raises. -/
def capturePlots (maxPlotCount : Nat) (figs : List Figure) : List Str :=
  (figs.take maxPlotCount).filterMap fun f =>
    if f.renderFails then none
    else some ("data:image/png;base64,".toList ++ f.payload)

/-- The truncation notice appended to over-long stdout. -/
def truncNotice (m : Nat) : Str :=
  "\n... (output truncated, showing first ".toList ++ natStr m ++
    " characters)".toList

/-- The traceback lines `_format_error` keeps as context: those
mentioning `File "<string>"` or containing `line` case-insensitively. -/
def relevantLines (tb : Str) : List Str :=
  (splitLines (pyStrip tb)).filter fun l =>
    occursB "File \"<string>\"".toList l || occursB "line".toList (toLowerStr l)

/-- `CodeExecutor._format_error`: last line of the stripped traceback,
plus (when any context line exists) the last three context lines. -/
def formatError (emsg tb : Str) : Str :=
  let errorLine := ((splitLines (pyStrip tb)).getLast?).getD emsg
  if (relevantLines tb).isEmpty then errorLine
  else errorLine ++ "\n\nContext:\n".toList ++
    joinLines ((relevantLines tb).drop ((relevantLines tb).length - 3))

/-- `CodeExecutor.execute_code` over the `exec` oracle: validate first
(returning the security-violation result with nothing executed), then
package timeout, exception, or success exactly as the source does. -/
def executeCode (cfg : ExecConfig) (beh : ExecBehavior) (code : Str) : ExecResult :=
  let v := validate code
  if v.1 then
    if beh.timedOut then
      { success := false, output := [],
        error := some ("Execution timed out after ".toList ++
          natStr cfg.timeout ++ " seconds".toList),
        plots := [], vars := [] }
    else
      match beh.exn with
      | some (emsg, tb) =>
        { success := false, output := beh.stdout.take 1000,
          error := some (formatError emsg tb),
          plots := capturePlots cfg.maxPlotCount beh.figures, vars := [] }
      | none =>
        { success := true,
          output :=
            if beh.stdout.length > cfg.maxOutputSize then
              beh.stdout.take cfg.maxOutputSize ++ truncNotice cfg.maxOutputSize
            else beh.stdout,
          error := if beh.stderrTxt.isEmpty then none else some beh.stderrTxt,
          plots := capturePlots cfg.maxPlotCount beh.figures,
          vars := varInfo beh.envAfter }
  else
    { success := false, output := [],
      error := some ("Security violation: ".toList ++ v.2),
      plots := [], vars := [] }

/-! ## `file_handler` dataframe store

Python dataframes are mutable objects; `.copy()` aliasing is made
visible by a heap of addressed cells.  A stored dataset is an address
into the heap; `get_dataframe` reads the stored cell and allocates a
fresh cell holding a copy of its value (`session_files[file_id].copy()`),
returning the fresh address — exactly the source's copy-on-read. -/

/-- A tabular artifact: named columns of integer data (enough structure
to distinguish mutation). -/
abbrev DFV := List (Str × List Int)

/-- The heap of dataframe objects; an address is an index. -/
structure DFHeap where
  cells : List DFV
deriving DecidableEq

/-- Read the cell at an address. -/
def readH (h : DFHeap) (a : Nat) : Option DFV := h.cells.get? a

/-- Overwrite the cell at an address (an in-place dataframe mutation). -/
def writeH (h : DFHeap) (a : Nat) (v : DFV) : DFHeap := ⟨h.cells.set a v⟩

/-- Allocate a fresh cell, returning the new heap and its address. -/
def allocH (h : DFHeap) (v : DFV) : DFHeap × Nat := (⟨h.cells ++ [v]⟩, h.cells.length)

/-- `_dataframes`: session id → (file id → stored address), insertion
order preserved as in a Python dict. -/
structure DStore where
  sessions : List (Str × List (Str × Nat))
deriving DecidableEq

/-- First-match association lookup (Python dict access). -/
def alookup {α : Type} (k : Str) : List (Str × α) → Option α
  | [] => none
  | (k1, v) :: rest => if k1 == k then some v else alookup k rest

/-- `file_handler.get_dataframe`: `None` for an unknown session or file;
with `file_id=None` the first stored file is used; on a hit the stored
dataframe is copied into a fresh cell whose address is handed out. -/
def getDataframe (st : DStore) (h : DFHeap) (sid : Str) (fid : Option Str) :
    Option (DFHeap × Nat) :=
  match alookup sid st.sessions with
  | none => none
  | some files =>
    match files with
    | [] => none
    | f0 :: _ =>
      let fid1 := fid.getD f0.1
      match alookup fid1 files with
      | none => none
      | some a0 =>
        match readH h a0 with
        | none => none
        | some v => some (allocH h v)

/-- Every address stored in the store points inside the heap. -/
def storeWF (st : DStore) (h : DFHeap) : Prop :=
  ∀ sid files, alookup sid st.sessions = some files →
    ∀ fid a, (fid, a) ∈ files → a < h.cells.length

/-! ## `AgentOrchestrator.route_request`

Keyword routing first (rules scanned in declaration order, a rule fires
when any of its keywords occurs in the lowercased request); only when no
rule fires is the external model consulted — that call is an oracle
(`Except Unit Str`: an exception, or the raw response text).  Confidence
weights are scaled by 100 to stay in `Nat` (0.95 ↦ 95). -/

/-- One routing rule: agent id, keyword list, confidence (×100). -/
structure RouteRule where
  agent : Str
  keywords : List Str
  confidence : Nat
deriving DecidableEq

/-- The `routing_rules` list of `route_request`, in declaration order. -/
def routingRules : List RouteRule :=
  [⟨"sql".toList,
    ["database", "sql", "query", "table", "postgres", "mysql",
     "select", "from table", "join", "schema", "records"].map String.toList, 95⟩,
   ⟨"prediction".toList,
    ["predict", "forecast", "projection", "future", "estimate",
     "by 2025", "by 2026", "by 2030", "next year", "will be"].map String.toList, 90⟩,
   ⟨"statistics".toList,
    ["significant", "correlation", "t-test", "test", "p-value",
     "hypothesis", "compare", "anova", "chi-square"].map String.toList, 90⟩,
   ⟨"eda".toList,
    ["explore", "eda", "exploratory", "profile", "overview",
     "summary", "describe", "distribution", "missing values"].map String.toList, 85⟩,
   ⟨"visualization".toList,
    ["chart", "plot", "graph", "visualiz", "histogram",
     "scatter", "bar chart", "line chart", "heatmap"].map String.toList, 90⟩,
   ⟨"insights".toList,
    ["insight", "pattern", "trend", "finding", "key", "important"].map String.toList, 80⟩]

/-- The `valid_agents` list the AI fallback is checked against. -/
def validAgents : List Str :=
  ["sql", "visualization", "prediction", "statistics", "eda", "insights",
   "code-generation"].map String.toList

/-- The routing result (agent, confidence ×100, reason). -/
structure RouteResult where
  agent : Str
  confidence : Nat
  reason : Str
deriving DecidableEq

/-- First rule (in declaration order) with a keyword occurring in the
lowercased request. -/
def findRule : List RouteRule → Str → Option RouteRule
  | [], _ => none
  | r :: rest, lower =>
    if r.keywords.any (fun kw => occursB kw lower) then some r
    else findRule rest lower

/-- `AgentOrchestrator.route_request` over the AI oracle. -/
def routeRequest (oracle : Except Unit Str) (userRequest : Str) : RouteResult :=
  let lower := toLowerStr userRequest
  match findRule routingRules lower with
  | some r =>
    ⟨r.agent, r.confidence,
      "Keywords match ".toList ++ r.agent ++ " capabilities".toList⟩
  | none =>
    match oracle with
    | .error _ => ⟨"code-generation".toList, 50, "Default routing".toList⟩
    | .ok resp =>
      let nm := toLowerStr (pyStrip resp)
      if validAgents.contains nm then ⟨nm, 80, "AI routed".toList⟩
      else ⟨"code-generation".toList, 50, "Default fallback".toList⟩

/-! ## `TextProcessor.extract_code_blocks` -/

/-- A fenced-block delimiter line: `line.strip().startswith('```')`. -/
def isDelim (l : Str) : Bool := startsWithB "```".toList (pyStrip l)

/-- The language tag taken at an opening delimiter:
`line.strip()[3:].strip() or "python"`. -/
def langOf (l : Str) : Str :=
  let t := pyStrip ((pyStrip l).drop 3)
  if t.isEmpty then "python".toList else t

/-- An extracted block. -/
structure CodeBlock where
  language : Str
  code : Str
deriving DecidableEq

/-- The line scanner of `extract_code_blocks`: `inBlock` is
`in_code_block`, `curLang` is `current_language` (not reset at a closing
delimiter, exactly as in the source), `curCode` the accumulated lines. -/
def extractAux : List Str → Bool → Str → List Str → List CodeBlock
  | [], _, _, _ => []
  | l :: ls, inBlock, curLang, curCode =>
    if isDelim l then
      if inBlock then
        ⟨if curLang.isEmpty then "python".toList else curLang,
          joinLines curCode⟩ :: extractAux ls false curLang []
      else extractAux ls true (langOf l) curCode
    else if inBlock then extractAux ls inBlock curLang (curCode ++ [l])
    else extractAux ls inBlock curLang curCode

/-- `TextProcessor.extract_code_blocks`. -/
def extract_code_blocks (text : Str) : List CodeBlock :=
  extractAux (splitLines text) false [] []

/-! # Theorems -/

/-! ## C1: blocked patterns short-circuit validation and execution -/

theorem findBlocked_of_match {ps : List (List RTok × Str)} {code : Str}
    (h : ∃ p ∈ ps, research p.1 code = true) :
    ∃ d, findBlocked ps code = some d ∧
      ∃ p ∈ ps, research p.1 code = true ∧ d = p.2 := by
  induction ps with
  | nil => obtain ⟨p, hp, _⟩ := h; exact absurd hp (List.not_mem_nil p)
  | cons q rest ih =>
    obtain ⟨ts, d⟩ := q
    by_cases hq : research ts code = true
    · exact ⟨d, by simp [findBlocked, hq],
        (ts, d), List.mem_cons_self _ _, hq, rfl⟩
    · obtain ⟨p, hp, hr⟩ := h
      rcases List.mem_cons.mp hp with heq | hmem
      · subst heq; exact absurd hr hq
      · obtain ⟨d1, hfb, p1, hp1, hr1, hd1⟩ := ih ⟨p, hmem, hr⟩
        exact ⟨d1, by simp [findBlocked, hq, hfb],
          p1, List.mem_cons_of_mem _ hp1, hr1, hd1⟩

/-- C1: for every code string in which some pattern of the validator's
blocklist occurs, `validate` returns `is_safe = False` with the matched
pattern named in the violation reason, and `execute_code` returns
immediately — `success = False`, empty output, no plots, no variables,
an error naming a security violation — with a result independent of
whatever running the code would have done (the code is never executed). -/
theorem blocked_code_is_rejected_without_execution
    (code : Str) (cfg : ExecConfig) (beh beh2 : ExecBehavior)
    (hmatch : ∃ p ∈ BLOCKED_PATTERNS, research p.1 code = true) :
    (validate code).1 = false ∧
    (∃ p ∈ BLOCKED_PATTERNS, research p.1 code = true ∧
      (validate code).2 = "Blocked pattern detected: ".toList ++ p.2) ∧
    executeCode cfg beh code =
      { success := false, output := [],
        error := some ("Security violation: ".toList ++ (validate code).2),
        plots := [], vars := [] } ∧
    executeCode cfg beh code = executeCode cfg beh2 code := by
  obtain ⟨d, hfb, p, hp, hr, hd⟩ := findBlocked_of_match hmatch
  have hval : validate code =
      (false, "Blocked pattern detected: ".toList ++ d) := by
    simp [validate, hfb]
  refine ⟨by simp [hval], ⟨p, hp, hr, by simp [hval, hd]⟩, ?_, ?_⟩
  · simp [executeCode, hval]
  · simp [executeCode, hval]

theorem blocked_code_is_rejected_without_execution_holds :
    (∃ p ∈ BLOCKED_PATTERNS,
      research p.1 "import os\nos.system(\x27rm -rf /\x27)".toList = true) ∧
    (validate "import os\nos.system(\x27rm -rf /\x27)".toList).1 = false ∧
    executeCode ⟨30, 100000, 10⟩
        ⟨false, "oops".toList, [], none, [], baseEnvironment⟩
        "import os\nos.system(\x27rm -rf /\x27)".toList =
      { success := false, output := [],
        error := some ("Security violation: ".toList ++
          (validate "import os\nos.system(\x27rm -rf /\x27)".toList).2),
        plots := [], vars := [] } := by
  have hm : ∃ p ∈ BLOCKED_PATTERNS,
      research p.1 "import os\nos.system(\x27rm -rf /\x27)".toList = true := by
    refine ⟨([.wb] ++ litToks "os.system" ++ [.wb],
      "\\bos\\.system\\b".toList), ?_, by decide⟩
    unfold BLOCKED_PATTERNS
    exact List.mem_cons_self _ _
  obtain ⟨h1, _, h3, _⟩ := blocked_code_is_rejected_without_execution
    "import os\nos.system(\x27rm -rf /\x27)".toList ⟨30, 100000, 10⟩
    ⟨false, "oops".toList, [], none, [], baseEnvironment⟩
    ⟨true, [], [], none, [], []⟩ hm
  exact ⟨hm, h1, h3⟩

/-! ## C2: stdout truncation on the success path -/

/-- C2: on a successful execution, stdout longer than
`max_output_size` is returned as exactly its first `max_output_size`
characters with the truncation notice appended after them; stdout at or
below the cap is returned unchanged. -/
theorem success_output_is_capped_stdout_with_notice
    (cfg : ExecConfig) (beh : ExecBehavior) (code : Str)
    (hv : (validate code).1 = true) (ht : beh.timedOut = false)
    (he : beh.exn = none) :
    (beh.stdout.length > cfg.maxOutputSize →
      (executeCode cfg beh code).output =
        beh.stdout.take cfg.maxOutputSize ++ truncNotice cfg.maxOutputSize) ∧
    (beh.stdout.length ≤ cfg.maxOutputSize →
      (executeCode cfg beh code).output = beh.stdout) := by
  cases hval : validate code with
  | mk b s =>
    have hb : b = true := by rw [hval] at hv; exact hv
    subst hb
    constructor
    · intro hlong
      simp [executeCode, hval, ht, he, hlong]
    · intro hshort
      have hno : ¬ (beh.stdout.length > cfg.maxOutputSize) := by omega
      simp [executeCode, hval, ht, he, hno]

theorem success_output_is_capped_stdout_with_notice_holds :
    ((validate "print(x)".toList).1 = true ∧
      (10 > 5 ∧
        (executeCode ⟨30, 5, 10⟩
            ⟨false, "0123456789".toList, [], none, [], []⟩
            "print(x)".toList).output =
          "01234".toList ++ truncNotice 5)) ∧
    ((validate "print(x)".toList).1 = true ∧
      (3 ≤ 5 ∧
        (executeCode ⟨30, 5, 10⟩
            ⟨false, "abc".toList, [], none, [], []⟩
            "print(x)".toList).output = "abc".toList)) := by
  constructor
  · refine ⟨by decide, by decide, ?_⟩
    have h := (success_output_is_capped_stdout_with_notice ⟨30, 5, 10⟩
      ⟨false, "0123456789".toList, [], none, [], []⟩ "print(x)".toList
      (by decide) rfl rfl).1 (by decide)
    rw [h]; decide
  · refine ⟨by decide, by decide, ?_⟩
    have h := (success_output_is_capped_stdout_with_notice ⟨30, 5, 10⟩
      ⟨false, "abc".toList, [], none, [], []⟩ "print(x)".toList
      (by decide) rfl rfl).2 (by decide)
    rw [h]

/-! ## C4: timeout reporting -/

/-- C4: when the worker does not finish within the configured timeout,
`execute_code` returns (rather than raising) a result with
`success = False` and a timeout-specific error message that includes the
configured limit. -/
theorem timeout_yields_failure_naming_limit
    (cfg : ExecConfig) (beh : ExecBehavior) (code : Str)
    (hv : (validate code).1 = true) (ht : beh.timedOut = true) :
    executeCode cfg beh code =
      { success := false, output := [],
        error := some ("Execution timed out after ".toList ++
          natStr cfg.timeout ++ " seconds".toList),
        plots := [], vars := [] } ∧
    ∃ pre post, (executeCode cfg beh code).error =
      some (pre ++ natStr cfg.timeout ++ post) := by
  cases hval : validate code with
  | mk b s =>
    have hb : b = true := by rw [hval] at hv; exact hv
    subst hb
    constructor
    · simp [executeCode, hval, ht]
    · exact ⟨"Execution timed out after ".toList, " seconds".toList,
        by simp [executeCode, hval, ht]⟩

theorem timeout_yields_failure_naming_limit_holds :
    (validate "x = 1".toList).1 = true ∧
    executeCode ⟨7, 100000, 10⟩ ⟨true, [], [], none, [], []⟩ "x = 1".toList =
      { success := false, output := [],
        error := some ("Execution timed out after 7 seconds".toList),
        plots := [], vars := [] } := by
  refine ⟨by decide, ?_⟩
  have h := (timeout_yields_failure_naming_limit ⟨7, 100000, 10⟩
    ⟨true, [], [], none, [], []⟩ "x = 1".toList (by decide) rfl).1
  rw [h]; decide

/-! ## Helper lemmas on lines -/

theorem splitLines_ne_nil (s : Str) : splitLines s ≠ [] := by
  cases s with
  | nil => simp [splitLines]
  | cons c t =>
    simp only [splitLines]
    split
    · simp
    · split <;> simp

theorem mem_splitLines_no_newline {s : Str} :
    ∀ l ∈ splitLines s, '\n' ∉ l := by
  induction s with
  | nil => intro l hl; simp [splitLines] at hl; simp [hl]
  | cons c t ih =>
    intro l hl
    simp only [splitLines] at hl
    by_cases hc : c == '\n'
    · rw [if_pos hc] at hl
      rcases List.mem_cons.mp hl with h | h
      · simp [h]
      · exact ih l h
    · rw [if_neg hc] at hl
      cases hsp : splitLines t with
      | nil => exact absurd hsp (splitLines_ne_nil t)
      | cons l0 ls =>
        rw [hsp] at hl
        rcases List.mem_cons.mp hl with h | h
        · subst h
          intro hmem
          rcases List.mem_cons.mp hmem with h1 | h1
          · exact hc (by simp [h1.symm])
          · exact ih l0 (hsp ▸ List.mem_cons_self _ _) h1
        · exact ih l (hsp ▸ List.mem_cons_of_mem _ h)

theorem splitLines_cons_newline (b : Str) :
    splitLines ('\n' :: b) = [] :: splitLines b := by
  simp [splitLines]

theorem splitLines_append_newline {a : Str} (ha : '\n' ∉ a) (b : Str) :
    splitLines (a ++ '\n' :: b) = a :: splitLines b := by
  induction a with
  | nil => simpa using splitLines_cons_newline b
  | cons c a1 ih =>
    have hc : ¬ (c == '\n') := by
      simp only [List.mem_cons] at ha
      simp only [beq_iff_eq]
      exact fun h => ha (Or.inl h.symm)
    have ha1 : '\n' ∉ a1 := fun h => ha (List.mem_cons_of_mem _ h)
    simp only [List.cons_append, splitLines, if_neg hc]
    rw [List.append_eq, ih ha1]

theorem splitLines_no_newline {a : Str} (ha : '\n' ∉ a) :
    splitLines a = [a] := by
  induction a with
  | nil => simp [splitLines]
  | cons c a1 ih =>
    have hc : ¬ (c == '\n') := by
      simp only [List.mem_cons] at ha
      simp only [beq_iff_eq]
      exact fun h => ha (Or.inl h.symm)
    have ha1 : '\n' ∉ a1 := fun h => ha (List.mem_cons_of_mem _ h)
    simp only [splitLines, if_neg hc, ih ha1]

theorem splitLines_joinLines {ls : List Str}
    (h : ∀ l ∈ ls, '\n' ∉ l) (hne : ls ≠ []) :
    splitLines (joinLines ls) = ls := by
  induction ls with
  | nil => exact absurd rfl hne
  | cons l rest ih =>
    cases rest with
    | nil => exact splitLines_no_newline (h l (List.mem_cons_self _ _))
    | cons l2 rest2 =>
      have : joinLines (l :: l2 :: rest2) = l ++ '\n' :: joinLines (l2 :: rest2) := rfl
      rw [this, splitLines_append_newline (h l (List.mem_cons_self _ _))]
      rw [ih (fun x hx => h x (List.mem_cons_of_mem _ hx)) (by simp)]

theorem startsWithB_append_self (l r : Str) : startsWithB l (l ++ r) = true := by
  induction l with
  | nil => rfl
  | cons c cs ih => simp [startsWithB, ih]

/-! ## C3: size-cap invariant (corrected) -/

theorem capturePlots_length_le (n : Nat) (figs : List Figure) :
    (capturePlots n figs).length ≤ n :=
  le_trans (List.length_filterMap_le _ _) (List.length_take_le _ _)

theorem output_cap_violated_when_truncating :
    ¬ ((executeCode ⟨30, 5, 10⟩
        ⟨false, "0123456789".toList, [], none, [], []⟩
        "print(x)".toList).output.length ≤ 5) := by decide

/-- C3 (amended): the plot count never exceeds `max_plot_count`, and the
output length never exceeds `max_output_size` **plus the length of the
truncation notice** (the error path caps output at 1000 characters
instead) — the notice is appended after cutting to the cap, so the cap
itself is exceeded exactly when truncation fires. -/
theorem result_size_bounds (cfg : ExecConfig) (beh : ExecBehavior) (code : Str) :
    (executeCode cfg beh code).plots.length ≤ cfg.maxPlotCount ∧
    (executeCode cfg beh code).output.length ≤
      max (cfg.maxOutputSize + (truncNotice cfg.maxOutputSize).length) 1000 := by
  cases hval : validate code with
  | mk b s =>
    cases b with
    | false =>
      constructor <;> simp [executeCode, hval]
    | true =>
      cases ht : beh.timedOut with
      | true => constructor <;> simp [executeCode, hval, ht]
      | false =>
        cases he : beh.exn with
        | some p =>
          obtain ⟨emsg, tb⟩ := p
          constructor
          · simpa [executeCode, hval, ht, he] using
              capturePlots_length_le cfg.maxPlotCount beh.figures
          · have h1 : (beh.stdout.take 1000).length ≤ 1000 :=
              List.length_take_le _ _
            simp only [executeCode, hval, ht, he]
            exact le_trans h1 (Nat.le_max_right _ _)
        | none =>
          constructor
          · simpa [executeCode, hval, ht, he] using
              capturePlots_length_le cfg.maxPlotCount beh.figures
          · by_cases hlong : beh.stdout.length > cfg.maxOutputSize
            · have h1 : (beh.stdout.take cfg.maxOutputSize).length =
                  cfg.maxOutputSize := by
                rw [List.length_take]; omega
              simp [executeCode, hval, ht, he, hlong, List.length_take]
            · have h2 : beh.stdout.length ≤
                  cfg.maxOutputSize + (truncNotice cfg.maxOutputSize).length := by
                omega
              simp [executeCode, hval, ht, he, hlong]
              omega

/-! ## C5: failure packaging (corrected) -/

theorem error_output_is_prefix_counterexample :
    (executeCode ⟨30, 100000, 10⟩
        ⟨false, List.replicate 1001 'a', [],
          some ("boom".toList, "ValueError: boom".toList), [], []⟩
        "x = 1".toList).output ≠ List.replicate 1001 'a' := by
  have hout : (executeCode ⟨30, 100000, 10⟩
      ⟨false, List.replicate 1001 'a', [],
        some ("boom".toList, "ValueError: boom".toList), [], []⟩
      "x = 1".toList).output = (List.replicate 1001 'a').take 1000 := by rfl
  intro hEq
  rw [hout] at hEq
  have hlen := congrArg List.length hEq
  rw [List.length_take, List.length_replicate] at hlen
  omega

theorem splitLines_context {e : Str} (he : '\n' ∉ e) (J : Str) :
    splitLines (e ++ "\n\nContext:\n".toList ++ J) =
      e :: [] :: "Context:".toList :: splitLines J := by
  have h1 : e ++ "\n\nContext:\n".toList ++ J =
      e ++ '\n' :: ('\n' :: ("Context:".toList ++ '\n' :: J)) := by
    rw [List.append_assoc]; rfl
  rw [h1, splitLines_append_newline he, splitLines_cons_newline,
    splitLines_append_newline (by decide)]

/-- The error text `_format_error` produces always starts with the last
line of the stripped traceback and spans at most 6 lines, however large
the traceback is. -/
theorem formatError_excerpt (emsg tb : Str) :
    (∃ last, (splitLines (pyStrip tb)).getLast? = some last ∧
      startsWithB last (formatError emsg tb) = true) ∧
    (splitLines (formatError emsg tb)).length ≤ 6 := by
  have hlines : splitLines (pyStrip tb) ≠ [] := splitLines_ne_nil _
  have hlast : (splitLines (pyStrip tb)).getLast? =
      some ((splitLines (pyStrip tb)).getLast hlines) :=
    List.getLast?_eq_getLast _ hlines
  have hlastnn : '\n' ∉ (splitLines (pyStrip tb)).getLast hlines :=
    mem_splitLines_no_newline _ (List.getLast_mem hlines)
  have herr : ((splitLines (pyStrip tb)).getLast?).getD emsg =
      (splitLines (pyStrip tb)).getLast hlines := by rw [hlast]; rfl
  by_cases hrel : (relevantLines tb).isEmpty
  · have hfe : formatError emsg tb = (splitLines (pyStrip tb)).getLast hlines := by
      simp only [formatError, if_pos hrel, herr]
    constructor
    · refine ⟨(splitLines (pyStrip tb)).getLast hlines, hlast, ?_⟩
      rw [hfe]
      simpa using startsWithB_append_self ((splitLines (pyStrip tb)).getLast hlines) []
    · rw [hfe, splitLines_no_newline hlastnn]; simp
  · have hRne : relevantLines tb ≠ [] := by
      intro h; rw [h] at hrel; simp at hrel
    have hplen : ((relevantLines tb).drop ((relevantLines tb).length - 3)).length =
        (relevantLines tb).length - ((relevantLines tb).length - 3) :=
      List.length_drop _ _
    have hRlen : (relevantLines tb).length ≠ 0 :=
      fun h => hRne (List.length_eq_zero.mp h)
    have hppos : 0 < ((relevantLines tb).drop ((relevantLines tb).length - 3)).length := by
      omega
    have hpne : (relevantLines tb).drop ((relevantLines tb).length - 3) ≠ [] :=
      fun h => absurd hppos (by simp [h])
    have hpnn : ∀ l ∈ (relevantLines tb).drop ((relevantLines tb).length - 3),
        '\n' ∉ l := by
      intro l hl
      have hl2 : l ∈ relevantLines tb := List.drop_subset _ _ hl
      exact mem_splitLines_no_newline _ (List.mem_of_mem_filter hl2)
    have hfe : formatError emsg tb =
        (splitLines (pyStrip tb)).getLast hlines ++ "\n\nContext:\n".toList ++
          joinLines ((relevantLines tb).drop ((relevantLines tb).length - 3)) := by
      simp only [formatError, if_neg hrel, herr]
    constructor
    · refine ⟨(splitLines (pyStrip tb)).getLast hlines, hlast, ?_⟩
      rw [hfe, List.append_assoc]
      exact startsWithB_append_self _ _
    · rw [hfe, splitLines_context hlastnn, splitLines_joinLines hpnn hpne]
      simp only [List.length_cons]
      omega

/-- C5 (amended): on a runtime exception the executor returns (never
raises) a result with `success = False`, whose output is the **first
1000 characters** of the stdout captured before the fault (all of it
when shorter), and whose error starts with the exception's final
message line (the last line of the stripped traceback) followed by at
most a three-line context excerpt — at most 6 lines in total, never a
full multi-frame stack dump. -/
theorem runtime_error_packaging
    (cfg : ExecConfig) (beh : ExecBehavior) (code : Str) (emsg tb : Str)
    (hv : (validate code).1 = true) (ht : beh.timedOut = false)
    (he : beh.exn = some (emsg, tb)) :
    (executeCode cfg beh code).success = false ∧
    (executeCode cfg beh code).output = beh.stdout.take 1000 ∧
    (executeCode cfg beh code).error = some (formatError emsg tb) ∧
    (∃ last, (splitLines (pyStrip tb)).getLast? = some last ∧
      startsWithB last (formatError emsg tb) = true) ∧
    (splitLines (formatError emsg tb)).length ≤ 6 := by
  cases hval : validate code with
  | mk b s =>
    have hb : b = true := by rw [hval] at hv; exact hv
    subst hb
    exact ⟨by simp [executeCode, hval, ht, he],
      by simp [executeCode, hval, ht, he],
      by simp [executeCode, hval, ht, he],
      (formatError_excerpt emsg tb).1, (formatError_excerpt emsg tb).2⟩

theorem runtime_error_packaging_holds :
    (validate "x = 1".toList).1 = true ∧
    ((executeCode ⟨30, 100000, 10⟩
        ⟨false, "step1\n".toList, [],
          some ("bad column".toList,
            "Traceback (most recent call last):\n  File \"<string>\", line 2, in <module>\nValueError: bad column".toList),
          [], []⟩ "x = 1".toList).success = false ∧
      (executeCode ⟨30, 100000, 10⟩
        ⟨false, "step1\n".toList, [],
          some ("bad column".toList,
            "Traceback (most recent call last):\n  File \"<string>\", line 2, in <module>\nValueError: bad column".toList),
          [], []⟩ "x = 1".toList).output = "step1\n".toList.take 1000 ∧
      (executeCode ⟨30, 100000, 10⟩
        ⟨false, "step1\n".toList, [],
          some ("bad column".toList,
            "Traceback (most recent call last):\n  File \"<string>\", line 2, in <module>\nValueError: bad column".toList),
          [], []⟩ "x = 1".toList).error =
        some (formatError "bad column".toList
          "Traceback (most recent call last):\n  File \"<string>\", line 2, in <module>\nValueError: bad column".toList) ∧
      (∃ last,
        (splitLines (pyStrip "Traceback (most recent call last):\n  File \"<string>\", line 2, in <module>\nValueError: bad column".toList)).getLast?
          = some last ∧
        startsWithB last (formatError "bad column".toList
          "Traceback (most recent call last):\n  File \"<string>\", line 2, in <module>\nValueError: bad column".toList) = true) ∧
      (splitLines (formatError "bad column".toList
        "Traceback (most recent call last):\n  File \"<string>\", line 2, in <module>\nValueError: bad column".toList)).length ≤ 6) :=
  ⟨by decide,
    runtime_error_packaging ⟨30, 100000, 10⟩
      ⟨false, "step1\n".toList, [],
        some ("bad column".toList,
          "Traceback (most recent call last):\n  File \"<string>\", line 2, in <module>\nValueError: bad column".toList),
        [], []⟩ "x = 1".toList "bad column".toList
      "Traceback (most recent call last):\n  File \"<string>\", line 2, in <module>\nValueError: bad column".toList
      (by decide) rfl rfl⟩

/-! ## C6: dataset isolation through copy-on-read -/

theorem alookup_mem {α : Type} {k : Str} {l : List (Str × α)} {v : α}
    (h : alookup k l = some v) : (k, v) ∈ l := by
  induction l with
  | nil => simp [alookup] at h
  | cons p rest ih =>
    obtain ⟨k1, v1⟩ := p
    simp only [alookup] at h
    split at h
    · cases h
      rename_i heq
      have : k1 = k := by simpa using heq
      subst this
      exact List.mem_cons_self _ _
    · exact List.mem_cons_of_mem _ (ih h)

theorem get?_set_ne {α : Type} {l : List α} {i j : Nat} (v : α) (h : i ≠ j) :
    (l.set i v).get? j = l.get? j := by
  induction l generalizing i j with
  | nil => simp
  | cons a t ih =>
    cases i with
    | zero =>
      cases j with
      | zero => exact absurd rfl h
      | succ j2 => simp [List.set]
    | succ i2 =>
      cases j with
      | zero => simp [List.set]
      | succ j2 => simpa [List.set] using ih (fun hh => h (by rw [hh]))

/-- C6: the dataset bound into the execution namespace is a fresh copy
of the stored original, so overwriting the handed-out cell (an in-place
mutation of the namespace-bound dataframe) never changes the value a
subsequent `get_dataframe(session_id, file_id)` returns: both the
mutated-heap read-back and the pre-mutation binding still hold the
original stored value. -/
theorem dataset_copy_isolation
    {st : DStore} {h : DFHeap} {sid : Str} {fid : Option Str}
    {h1 : DFHeap} {a1 : Nat}
    (hwf : storeWF st h)
    (hget : getDataframe st h sid fid = some (h1, a1)) (v2 : DFV) :
    ∃ h3 a3 v, getDataframe st (writeH h1 a1 v2) sid fid = some (h3, a3) ∧
      readH h3 a3 = some v ∧ readH h1 a1 = some v := by
  cases hs : alookup sid st.sessions with
  | none => rw [getDataframe, hs] at hget; exact absurd hget (by simp)
  | some files =>
    cases files with
    | nil => rw [getDataframe, hs] at hget; exact absurd hget (by simp)
    | cons f0 fr =>
      cases hf : alookup (fid.getD f0.1) (f0 :: fr) with
      | none =>
        rw [getDataframe, hs] at hget
        simp only [hf] at hget
        exact absurd hget (by simp)
      | some a0 =>
        cases hr : readH h a0 with
        | none =>
          rw [getDataframe, hs] at hget
          simp only [hf, hr] at hget
          exact absurd hget (by simp)
        | some v =>
          rw [getDataframe, hs] at hget
          simp only [hf, hr, allocH] at hget
          obtain ⟨hh1, ha1⟩ : h1 = ⟨h.cells ++ [v]⟩ ∧ a1 = h.cells.length := by
            cases hget; exact ⟨rfl, rfl⟩
          subst hh1; subst ha1
          have ha0 : a0 < h.cells.length :=
            hwf sid (f0 :: fr) hs (fid.getD f0.1) a0 (alookup_mem hf)
          have hne : h.cells.length ≠ a0 := by omega
          have hread2 : readH (writeH ⟨h.cells ++ [v]⟩ h.cells.length v2) a0 = some v := by
            simp only [readH, writeH]
            rw [get?_set_ne _ hne, List.get?_append ha0]
            exact hr
          refine ⟨(allocH (writeH ⟨h.cells ++ [v]⟩ h.cells.length v2) v).1,
            (allocH (writeH ⟨h.cells ++ [v]⟩ h.cells.length v2) v).2, v,
            ?_, ?_, ?_⟩
          · rw [getDataframe, hs]
            simp only [hf, hread2]
          · simp only [allocH, readH]
            exact List.get?_concat_length _ _
          · simp only [readH]
            exact List.get?_concat_length _ _

theorem dataset_copy_isolation_holds :
    storeWF ⟨[("s".toList, [("f".toList, 0)])]⟩ ⟨[[("c".toList, [1, 2, 3])]]⟩ ∧
    ∃ h3 a3 v,
      getDataframe ⟨[("s".toList, [("f".toList, 0)])]⟩
          (writeH ⟨[[("c".toList, [1, 2, 3])], [("c".toList, [1, 2, 3])]]⟩ 1
            [("c".toList, [9])])
          "s".toList (some "f".toList) = some (h3, a3) ∧
        readH h3 a3 = some v ∧
        readH ⟨[[("c".toList, [1, 2, 3])], [("c".toList, [1, 2, 3])]]⟩ 1 = some v := by
  have hwf : storeWF ⟨[("s".toList, [("f".toList, 0)])]⟩
      ⟨[[("c".toList, [1, 2, 3])]]⟩ := by
    intro sid files hlk fid a hmem
    simp only [alookup] at hlk
    split at hlk
    · cases hlk
      have := List.mem_singleton.mp hmem
      have ha : a = 0 := congrArg Prod.snd this
      simp [ha]
    · exact absurd hlk (by simp)
  refine ⟨hwf, ?_⟩
  exact dataset_copy_isolation hwf (by decide) [("c".toList, [9])]

/-! ## C8: routing totality, validity and first-match determinism -/

theorem findRule_first {rs : List RouteRule} {lower : Str} {r : RouteRule}
    (h : findRule rs lower = some r) :
    ∃ pre post, rs = pre ++ r :: post ∧
      (∀ q ∈ pre, q.keywords.any (fun kw => occursB kw lower) = false) ∧
      r.keywords.any (fun kw => occursB kw lower) = true := by
  induction rs with
  | nil => simp [findRule] at h
  | cons q rest ih =>
    by_cases hq : q.keywords.any (fun kw => occursB kw lower) = true
    · rw [findRule, if_pos hq] at h
      cases h
      exact ⟨[], rest, rfl, by simp, hq⟩
    · rw [findRule, if_neg hq] at h
      obtain ⟨pre, post, heq, hpre, hr⟩ := ih h
      refine ⟨q :: pre, post, by rw [heq]; rfl, ?_, hr⟩
      intro x hx
      rcases List.mem_cons.mp hx with h1 | h1
      · subst h1; simpa using hq
      · exact hpre x h1

theorem findRule_isSome_of_match {rs : List RouteRule} {lower : Str}
    (h : ∃ r ∈ rs, r.keywords.any (fun kw => occursB kw lower) = true) :
    ∃ r, findRule rs lower = some r := by
  induction rs with
  | nil => obtain ⟨r, hr, _⟩ := h; exact absurd hr (List.not_mem_nil r)
  | cons q rest ih =>
    by_cases hq : q.keywords.any (fun kw => occursB kw lower) = true
    · exact ⟨q, by rw [findRule, if_pos hq]⟩
    · obtain ⟨r, hr, hmatch⟩ := h
      rcases List.mem_cons.mp hr with h1 | h1
      · subst h1; exact absurd hmatch hq
      · obtain ⟨r2, hr2⟩ := ih ⟨r, h1, hmatch⟩
        exact ⟨r2, by rw [findRule, if_neg hq]; exact hr2⟩

/-- C8: `route_request` always returns an agent id from the fixed valid
set whatever the AI oracle does, and whenever any rule keyword occurs in
the lowercased request the result is the first matching rule in
declaration order — hence independent of the oracle, so two calls with
identical text and rules agree. -/
theorem route_request_total_and_first_match
    (text : Str) (o o2 : Except Unit Str) :
    (routeRequest o text).agent ∈ validAgents ∧
    ((∃ r ∈ routingRules,
        r.keywords.any (fun kw => occursB kw (toLowerStr text)) = true) →
      routeRequest o text = routeRequest o2 text ∧
      ∃ r pre post, findRule routingRules (toLowerStr text) = some r ∧
        (routeRequest o text).agent = r.agent ∧
        routingRules = pre ++ r :: post ∧
        (∀ q ∈ pre,
          q.keywords.any (fun kw => occursB kw (toLowerStr text)) = false) ∧
        r.keywords.any (fun kw => occursB kw (toLowerStr text)) = true) := by
  have hvalid : ∀ r ∈ routingRules, r.agent ∈ validAgents := by decide
  constructor
  · cases hfr : findRule routingRules (toLowerStr text) with
    | some r =>
      have hmem : r ∈ routingRules := by
        obtain ⟨pre, post, heq, _, _⟩ := findRule_first hfr
        rw [heq]
        exact List.mem_append_right _ (List.mem_cons_self _ _)
      have : (routeRequest o text).agent = r.agent := by
        simp [routeRequest, hfr]
      rw [this]
      exact hvalid r hmem
    | none =>
      cases o with
      | error e => simp only [routeRequest, hfr]; decide
      | ok resp =>
        by_cases hc : validAgents.contains (toLowerStr (pyStrip resp)) = true
        · have hmem := List.mem_of_elem_eq_true hc
          have : (routeRequest (.ok resp) text).agent =
              toLowerStr (pyStrip resp) := by
            simp [routeRequest, hfr, hmem]
          rw [this]
          exact hmem
        · have hnmem : ¬ (toLowerStr (pyStrip resp) ∈ validAgents) :=
            fun hm => hc (List.elem_eq_true_of_mem hm)
          have : (routeRequest (.ok resp) text).agent =
              "code-generation".toList := by
            simp [routeRequest, hfr, hnmem]
          rw [this]
          decide
  · intro hmatch
    obtain ⟨r, hfr⟩ := findRule_isSome_of_match hmatch
    obtain ⟨pre, post, heq, hpre, hr⟩ := findRule_first hfr
    refine ⟨by simp [routeRequest, hfr], r, pre, post, hfr, ?_, heq, hpre, hr⟩
    simp [routeRequest, hfr]

theorem route_request_total_and_first_match_holds :
    (∃ r ∈ routingRules,
      r.keywords.any
        (fun kw => occursB kw (toLowerStr "Plot sales by region".toList)) = true) ∧
    (routeRequest (.error ()) "Plot sales by region".toList).agent ∈ validAgents ∧
    routeRequest (.error ()) "Plot sales by region".toList =
      routeRequest (.ok "sql".toList) "Plot sales by region".toList := by
  have hm : ∃ r ∈ routingRules,
      r.keywords.any
        (fun kw => occursB kw (toLowerStr "Plot sales by region".toList)) = true := by
    decide
  have h := route_request_total_and_first_match
    "Plot sales by region".toList (.error ()) (.ok "sql".toList)
  exact ⟨hm, h.1, (h.2 hm).1⟩

/-! ## C10: which names appear in the variables mapping (corrected) -/

theorem prebound_name_appears_counterexample :
    ("stats".toList, VarInfo.plain "module".toList) ∈
      (executeCode ⟨30, 100000, 10⟩
        ⟨false, [], [], none, [], baseEnvironment⟩ "x = 1".toList).vars := by
  decide

/-- C10 (amended): a name appears in the result's variables mapping iff
it is bound in the execution namespace, does not start with `_`, and is
not in the executor's fixed `skip_items` set — and its summary is the
inspector's summary of its value.  (`skip_items` omits the pre-bound
names `stats`, `LinearRegression` and `PolynomialFeatures`, so those
pre-bound bindings do appear, as the counterexample shows.) -/
theorem variables_mapping_membership
    (env : List (Str × PyValue)) (n : Str) (i : VarInfo) :
    (n, i) ∈ varInfo env ↔
      ∃ v, (n, v) ∈ env ∧ i = summarize v ∧
        startsWithB "_".toList n = false ∧ skipItems.contains n = false := by
  unfold varInfo
  rw [List.mem_filterMap]
  constructor
  · rintro ⟨⟨m, v⟩, hmem, hf⟩
    by_cases hskip : (startsWithB "_".toList m || skipItems.contains m) = true
    · rw [if_pos hskip] at hf
      exact absurd hf (by simp)
    · rw [if_neg hskip] at hf
      have hmn : m = n ∧ summarize v = i := by
        have := Option.some.inj hf
        exact ⟨congrArg Prod.fst this, congrArg Prod.snd this⟩
      obtain ⟨h1, h2⟩ := hmn
      subst h1
      simp only [Bool.or_eq_true, not_or, Bool.not_eq_true] at hskip
      exact ⟨v, hmem, h2.symm, hskip.1, hskip.2⟩
  · rintro ⟨v, hmem, hi, h1, h2⟩
    refine ⟨(n, v), hmem, ?_⟩
    have hskip : (startsWithB "_".toList n || skipItems.contains n) = false := by
      rw [h1, h2]; rfl
    rw [hskip]
    simp [hi]

/-! ## C9: fenced-block extraction -/

theorem extractAux_none {ls : List Str} (h : ∀ l ∈ ls, isDelim l = false)
    (lang : Str) (code : List Str) : extractAux ls false lang code = [] := by
  induction ls with
  | nil => rfl
  | cons l ls2 ih =>
    have hl : isDelim l = false := h l (List.mem_cons_self _ _)
    simp only [extractAux, hl]
    exact ih (fun x hx => h x (List.mem_cons_of_mem _ hx))

theorem extractAux_skip {pre : List Str} (hpre : ∀ l ∈ pre, isDelim l = false)
    (rest : List Str) (lang : Str) :
    extractAux (pre ++ rest) false lang [] = extractAux rest false lang [] := by
  induction pre with
  | nil => rfl
  | cons l pre2 ih =>
    have hl : isDelim l = false := hpre l (List.mem_cons_self _ _)
    simp only [List.cons_append, extractAux, hl]
    exact ih (fun x hx => hpre x (List.mem_cons_of_mem _ hx))

theorem extractAux_inblock_unterminated {body : List Str}
    (h : ∀ l ∈ body, isDelim l = false) (lang : Str) (acc : List Str) :
    extractAux body true lang acc = [] := by
  induction body generalizing acc with
  | nil => rfl
  | cons l body2 ih =>
    have hl : isDelim l = false := h l (List.mem_cons_self _ _)
    simp only [extractAux, hl]
    exact ih (fun x hx => h x (List.mem_cons_of_mem _ hx)) _

theorem extractAux_false_lang (ls : List Str) (lang lang2 : Str) :
    extractAux ls false lang [] = extractAux ls false lang2 [] := by
  induction ls with
  | nil => rfl
  | cons l ls2 ih =>
    by_cases hl : isDelim l = true
    · simp [extractAux, hl]
    · simp [extractAux, hl]
      exact ih

theorem extractAux_block {body : List Str}
    (hbody : ∀ l ∈ body, isDelim l = false) {dclose : Str}
    (hdc : isDelim dclose = true) (rest : List Str) (lang : Str)
    (acc : List Str) :
    extractAux (body ++ dclose :: rest) true lang acc =
      ⟨if lang.isEmpty then "python".toList else lang, joinLines (acc ++ body)⟩ ::
        extractAux rest false lang [] := by
  induction body generalizing acc with
  | nil => simp [extractAux, hdc]
  | cons l body2 ih =>
    have hl : isDelim l = false := hbody l (List.mem_cons_self _ _)
    simp only [List.cons_append, extractAux, hl, Bool.false_eq_true,
      if_false, if_true, List.append_eq]
    rw [ih (fun x hx => hbody x (List.mem_cons_of_mem _ hx)) (acc ++ [l])]
    simp

theorem langOf_not_empty (l : Str) : (langOf l).isEmpty = false := by
  show (if (pyStrip ((pyStrip l).drop 3)).isEmpty = true then "python".toList
    else pyStrip ((pyStrip l).drop 3)).isEmpty = false
  by_cases h : (pyStrip ((pyStrip l).drop 3)).isEmpty = true
  · rw [if_pos h]; rfl
  · rw [if_neg h]
    simpa using h

/-- C9: `extract_code_blocks` returns one entry per fenced block that is
both opened and closed by a delimiter line, with the block's interior
lines joined back exactly as they appeared (line breaks and indentation
intact) and the language taken from the opening delimiter; text with no
delimiter lines yields no entry, and an unterminated block at the end of
the text contributes no entry at all. -/
theorem extract_code_blocks_spec :
    (∀ text, (∀ l ∈ splitLines text, isDelim l = false) →
      extract_code_blocks text = []) ∧
    (∀ pre dopen body dclose rest,
      (∀ l ∈ pre, isDelim l = false) → isDelim dopen = true →
      (∀ l ∈ body, isDelim l = false) → isDelim dclose = true →
      (∀ l ∈ pre ++ dopen :: body ++ dclose :: rest, '\n' ∉ l) →
      extract_code_blocks (joinLines (pre ++ dopen :: body ++ dclose :: rest)) =
        ⟨langOf dopen, joinLines body⟩ :: extractAux rest false [] []) ∧
    (∀ pre dopen body,
      (∀ l ∈ pre, isDelim l = false) → isDelim dopen = true →
      (∀ l ∈ body, isDelim l = false) →
      (∀ l ∈ pre ++ dopen :: body, '\n' ∉ l) →
      extract_code_blocks (joinLines (pre ++ dopen :: body)) = []) := by
  refine ⟨?_, ?_, ?_⟩
  · intro text h
    exact extractAux_none h [] []
  · intro pre dopen body dclose rest hpre hdo hbody hdc hnl
    have hne : pre ++ dopen :: body ++ dclose :: rest ≠ [] := by simp
    rw [extract_code_blocks, splitLines_joinLines hnl hne,
      List.append_assoc,
      extractAux_skip hpre ((dopen :: body) ++ (dclose :: rest)) []]
    simp only [List.cons_append]
    simp only [extractAux, hdo, if_true]
    rw [extractAux_block hbody hdc rest (langOf dopen) []]
    rw [langOf_not_empty dopen]
    simp only [Bool.false_eq_true, if_false, List.nil_append]
    rw [extractAux_false_lang rest (langOf dopen) []]
  · intro pre dopen body hpre hdo hbody hnl
    have hne : pre ++ dopen :: body ≠ [] := by simp
    rw [extract_code_blocks, splitLines_joinLines hnl hne,
      extractAux_skip hpre (dopen :: body) []]
    simp only [extractAux, hdo, if_true]
    exact extractAux_inblock_unterminated hbody _ _

theorem extract_code_blocks_spec_holds :
    extract_code_blocks "no blocks here".toList = [] ∧
    extract_code_blocks
        (joinLines ["intro".toList, "```python".toList, "x = 1".toList,
          "  y = 2".toList, "```".toList, "tail".toList]) =
      ⟨langOf "```python".toList,
        joinLines ["x = 1".toList, "  y = 2".toList]⟩ ::
        extractAux ["tail".toList] false [] [] ∧
    extract_code_blocks
        (joinLines ["intro".toList, "```python".toList, "partial".toList]) = [] := by
  obtain ⟨h1, h2, h3⟩ := extract_code_blocks_spec
  refine ⟨h1 "no blocks here".toList (by decide), ?_, ?_⟩
  · exact h2 ["intro".toList] "```python".toList
      ["x = 1".toList, "  y = 2".toList] "```".toList ["tail".toList]
      (by decide) (by decide) (by decide) (by decide) (by decide)
  · exact h3 ["intro".toList] "```python".toList ["partial".toList]
      (by decide) (by decide) (by decide) (by decide)

/-! ## C7: idempotence of `sanitize_code` -/

theorem subP_nil (lit : List Char) : subP lit [] = [] := by
  simp [subP]

theorem subP_cons_some {lit : List Char} {c : Char} {t rest : List Char}
    (h : tryPat lit (c :: t) = some rest) :
    subP lit (c :: t) = REPL ++ subP lit rest := by
  rw [subP]
  split
  · rename_i r heq
    rw [h] at heq
    cases heq
    rfl
  · rename_i heq
    rw [h] at heq
    cases heq

theorem subP_cons_none {lit : List Char} {c : Char} {t : List Char}
    (h : tryPat lit (c :: t) = none) :
    subP lit (c :: t) = c :: subP lit t := by
  rw [subP]
  split
  · rename_i r heq
    rw [h] at heq
    cases heq
  · rfl

theorem tryPat_nil_right (lit : List Char) : tryPat lit [] = none := by
  cases lit <;> rfl

theorem tryPat_cons (c : Char) (cs : List Char) (x : Char) (s : List Char) :
    tryPat (c :: cs) (x :: s) = if x == c then tryPat cs s else none := by
  by_cases h : x == c <;> simp [tryPat, matchLit, h]

theorem tryPat_nil_lit (x : Char) (s : List Char) :
    tryPat [] (x :: s) = if isQuoteB x then scanClose s else none := rfl

theorem scanClose_eq_none {s : List Char} :
    scanClose s = none ↔ ∀ c ∈ s, isQuoteB c = false := by
  induction s with
  | nil => simp [scanClose]
  | cons x xs ih =>
    by_cases hx : isQuoteB x
    · simp [scanClose, hx]
    · simp [scanClose, hx, ih]

theorem matchLit_mem {lit s s1 : List Char} (h : matchLit lit s = some s1) :
    ∀ a ∈ s1, a ∈ s := by
  induction lit generalizing s with
  | nil =>
    simp [matchLit] at h
    subst h
    exact fun a ha => ha
  | cons c cs ih =>
    cases s with
    | nil => simp [matchLit] at h
    | cons x xs =>
      simp only [matchLit] at h
      split at h
      · exact fun a ha => List.mem_cons_of_mem _ (ih h a ha)
      · exact absurd h (by simp)

theorem tryPat_some_quote {lit s rest : List Char}
    (h : tryPat lit s = some rest) : ∃ q ∈ s, isQuoteB q = true := by
  unfold tryPat at h
  cases hm : matchLit lit s with
  | none => rw [hm] at h; exact absurd h (by simp)
  | some s1 =>
    rw [hm] at h
    cases s1 with
    | nil => exact absurd h (by simp)
    | cons cq s2 =>
      by_cases hq : isQuoteB cq
      · exact ⟨cq, matchLit_mem hm cq (List.mem_cons_self _ _), hq⟩
      · simp [hq] at h

theorem mismatchWithin_spec {lit r : List Char}
    (h : mismatchWithin lit r = true) (v : List Char) :
    tryPat lit (r ++ v) = none := by
  induction lit generalizing r with
  | nil =>
    cases r with
    | nil => simp [mismatchWithin] at h
    | cons x xs =>
      simp only [mismatchWithin, Bool.not_eq_true'] at h
      rw [List.cons_append, tryPat_nil_lit, if_neg (by simp [h])]
  | cons c cs ih =>
    cases r with
    | nil => simp [mismatchWithin] at h
    | cons x xs =>
      rw [List.cons_append, tryPat_cons]
      by_cases hx : x == c
      · rw [if_pos hx]
        rw [mismatchWithin, if_pos hx] at h
        exact ih h
      · rw [if_neg hx]

theorem subP_no_quote {lit u : List Char}
    (h : ∀ c ∈ u, isQuoteB c = false) : subP lit u = u := by
  induction u with
  | nil => exact subP_nil lit
  | cons c t ih =>
    cases htp : tryPat lit (c :: t) with
    | some rest =>
      obtain ⟨q, hq, hqt⟩ := tryPat_some_quote htp
      rw [h q hq] at hqt
      cases hqt
    | none =>
      rw [subP_cons_none htp, ih (fun x hx => h x (List.mem_cons_of_mem _ hx))]

theorem subP_of_noMatch {lit u : List Char} (h : noMatch lit u) :
    subP lit u = u := by
  induction u with
  | nil => exact subP_nil lit
  | cons c t ih =>
    rw [subP_cons_none (h 0), ih (fun i => h (i + 1))]

theorem noMatch_cons {lit : List Char} {c : Char} {t : List Char} :
    noMatch lit (c :: t) ↔ tryPat lit (c :: t) = none ∧ noMatch lit t := by
  constructor
  · exact fun h => ⟨h 0, fun i => h (i + 1)⟩
  · rintro ⟨h0, ht⟩ i
    cases i with
    | zero => exact h0
    | succ j => exact ht j

theorem noMatch_nil (lit : List Char) : noMatch lit [] := by
  intro i
  rw [List.drop_nil]
  exact tryPat_nil_right lit

theorem noMatch_drop {lit u : List Char} (h : noMatch lit u) (k : Nat) :
    noMatch lit (u.drop k) := by
  intro i
  rw [List.drop_drop]
  exact h _

theorem drop_append_low {α : Type} (l1 l2 : List α) {i : Nat}
    (h : i ≤ l1.length) : (l1 ++ l2).drop i = l1.drop i ++ l2 := by
  induction l1 generalizing i with
  | nil =>
    simp at h
    simp [h]
  | cons a t ih =>
    cases i with
    | zero => simp
    | succ j => simpa using ih (Nat.le_of_succ_le_succ h)

theorem drop_append_high {α : Type} (l1 l2 : List α) (j : Nat) :
    (l1 ++ l2).drop (l1.length + j) = l2.drop j := by
  induction l1 with
  | nil => simp
  | cons a t ih => simpa [Nat.succ_add] using ih

theorem noMatch_repl_append {lit w : List Char} (hsafe : replSafe lit)
    (hw : noMatch lit w) : noMatch lit (REPL ++ w) := by
  intro i
  by_cases hi : i < REPL.length
  · rw [drop_append_low _ _ (le_of_lt hi)]
    exact mismatchWithin_spec (hsafe i hi) w
  · have heq : i = REPL.length + (i - REPL.length) := by omega
    rw [heq, drop_append_high]
    exact hw _

theorem matchLit_drop {lit s s1 : List Char} (h : matchLit lit s = some s1) :
    ∃ k, s1 = s.drop k := by
  induction lit generalizing s with
  | nil =>
    simp [matchLit] at h
    exact ⟨0, h.symm⟩
  | cons c cs ih =>
    cases s with
    | nil => simp [matchLit] at h
    | cons x xs =>
      simp only [matchLit] at h
      split at h
      · obtain ⟨k, hk⟩ := ih h
        exact ⟨k + 1, hk⟩
      · exact absurd h (by simp)

theorem scanClose_drop {s r : List Char} (h : scanClose s = some r) :
    ∃ k, r = s.drop k := by
  induction s with
  | nil => simp [scanClose] at h
  | cons x xs ih =>
    simp only [scanClose] at h
    split at h
    · cases h
      exact ⟨1, rfl⟩
    · obtain ⟨k, hk⟩ := ih h
      exact ⟨k + 1, hk⟩

theorem tryPat_drop {lit s r : List Char} (h : tryPat lit s = some r) :
    ∃ k, r = s.drop k := by
  unfold tryPat at h
  cases hm : matchLit lit s with
  | none => rw [hm] at h; exact absurd h (by simp)
  | some s1 =>
    rw [hm] at h
    cases s1 with
    | nil => exact absurd h (by simp)
    | cons cq s2 =>
      simp only at h
      split at h
      · obtain ⟨k2, hk2⟩ := scanClose_drop h
        obtain ⟨k1, hk1⟩ := matchLit_drop hm
        have hs2 : s2 = s.drop (k1 + 1) := by
          have hd := congrArg (List.drop 1) hk1
          simpa [List.drop_drop] using hd
        refine ⟨k2 + (k1 + 1), ?_⟩
        rw [hk2, hs2, List.drop_drop]
        congr 1
        omega
      · exact absurd h (by simp)

theorem allSafe_tail {c : Char} {cs : List Char} (h : allSafe (c :: cs)) :
    allSafe cs := fun n => h (n + 1)

theorem allSafe_of_check {lit : List Char}
    (h : ∀ n ≤ lit.length, mismatchWithin (lit.drop n) REPL = true) :
    allSafe lit := by
  intro n
  by_cases hn : n ≤ lit.length
  · exact h n hn
  · have hnil : lit.drop n = [] := List.drop_eq_nil_of_le (by omega)
    have h2 := h lit.length (le_refl _)
    rw [List.drop_length] at h2
    rw [hnil]
    exact h2

theorem allSafe_LITC : allSafe LITC := allSafe_of_check (by decide)

theorem allSafe_LITE : allSafe LITE := allSafe_of_check (by decide)

theorem replSafe_LITC : replSafe LITC := by
  unfold replSafe
  decide

theorem replSafe_LITE : replSafe LITE := by
  unfold replSafe
  decide

theorem peel (litB : List Char) :
    ∀ lit2, allSafe lit2 → ∀ t, tryPat lit2 t = none →
      tryPat lit2 (subP litB t) = none := by
  intro lit2
  induction lit2 with
  | nil =>
    intro hsafe t h
    cases t with
    | nil => rw [subP_nil]; exact h
    | cons x t2 =>
      cases htp : tryPat litB (x :: t2) with
      | some rest =>
        rw [subP_cons_some htp]
        exact mismatchWithin_spec (hsafe 0) _
      | none =>
        rw [subP_cons_none htp]
        rw [tryPat_nil_lit] at h ⊢
        by_cases hx : isQuoteB x
        · rw [if_pos hx] at h ⊢
          rw [subP_no_quote (scanClose_eq_none.mp h)]
          exact h
        · rw [if_neg hx]
  | cons c cs ih =>
    intro hsafe t h
    cases t with
    | nil => rw [subP_nil]; exact h
    | cons x t2 =>
      cases htp : tryPat litB (x :: t2) with
      | some rest =>
        rw [subP_cons_some htp]
        exact mismatchWithin_spec (hsafe 0) _
      | none =>
        rw [subP_cons_none htp]
        rw [tryPat_cons] at h ⊢
        by_cases hx : x == c
        · rw [if_pos hx] at h ⊢
          exact ih (allSafe_tail hsafe) t2 h
        · rw [if_neg hx]

theorem noMatch_subP_self {litA : List Char} (hsafeA : allSafe litA)
    (hreplA : replSafe litA) : ∀ u, noMatch litA (subP litA u) := by
  suffices hs : ∀ n u, u.length = n → noMatch litA (subP litA u) by
    exact fun u => hs u.length u rfl
  intro n
  induction n using Nat.strong_induction_on with
  | _ n ihn =>
    intro u hn
    cases u with
    | nil => rw [subP_nil]; exact noMatch_nil litA
    | cons c t =>
      cases htp : tryPat litA (c :: t) with
      | some rest =>
        rw [subP_cons_some htp]
        have hlt : rest.length < n := by
          rw [← hn]; exact tryPat_length htp
        exact noMatch_repl_append hreplA (ihn rest.length hlt rest rfl)
      | none =>
        rw [subP_cons_none htp]
        refine noMatch_cons.mpr ⟨?_, ?_⟩
        · have hp := peel litA litA hsafeA (c :: t) htp
          rwa [subP_cons_none htp] at hp
        · have hlt : t.length < n := by
            rw [← hn]; simp
          exact ihn t.length hlt t rfl

theorem noMatch_subP_preserved {litA : List Char} (hsafeA : allSafe litA)
    (hreplA : replSafe litA) (litB : List Char) :
    ∀ u, noMatch litA u → noMatch litA (subP litB u) := by
  suffices hs : ∀ n u, u.length = n → noMatch litA u → noMatch litA (subP litB u) by
    exact fun u => hs u.length u rfl
  intro n
  induction n using Nat.strong_induction_on with
  | _ n ihn =>
    intro u hn hu
    cases u with
    | nil => rw [subP_nil]; exact noMatch_nil litA
    | cons c t =>
      cases htp : tryPat litB (c :: t) with
      | some rest =>
        rw [subP_cons_some htp]
        have hlt : rest.length < n := by
          rw [← hn]; exact tryPat_length htp
        obtain ⟨k, hk⟩ := tryPat_drop htp
        have hrest : noMatch litA rest := by
          rw [hk]; exact noMatch_drop hu k
        exact noMatch_repl_append hreplA (ihn rest.length hlt rest rfl hrest)
      | none =>
        rw [subP_cons_none htp]
        refine noMatch_cons.mpr ⟨?_, ?_⟩
        · have hp := peel litB litA hsafeA (c :: t) (hu 0)
          rwa [subP_cons_none htp] at hp
        · have hlt : t.length < n := by
            rw [← hn]; simp
          exact ihn t.length hlt t rfl (fun i => hu (i + 1))

/-- C7: `sanitize_code` is idempotent — applying the two file-reload
rewrites a second time changes nothing, for arbitrary code text. -/
theorem sanitize_code_idempotent (x : Str) :
    sanitize_code (sanitize_code x) = sanitize_code x := by
  have hC : noMatch LITC (subP LITC x) :=
    noMatch_subP_self allSafe_LITC replSafe_LITC x
  have hCE : noMatch LITC (subP LITE (subP LITC x)) :=
    noMatch_subP_preserved allSafe_LITC replSafe_LITC LITE _ hC
  have hE : noMatch LITE (subP LITE (subP LITC x)) :=
    noMatch_subP_self allSafe_LITE replSafe_LITE (subP LITC x)
  show subP LITE (subP LITC (subP LITE (subP LITC x))) = subP LITE (subP LITC x)
  rw [subP_of_noMatch hCE, subP_of_noMatch hE]
